import Mathlib

/-!
Verification development for the tensor/matrix utility module
`mprl/util/util_matrix.py`.

The Python functions are shallowly embedded over exact rationals:

* vectors are `List ℚ`, square matrices are total functions `ℕ → ℕ → ℚ`
  whose size is carried separately (entries outside the size are irrelevant
  to every operation modelled here);
* the batch dimensions of the original tensors are dropped: every operation
  in the file acts independently on each batch element, so the unbatched
  semantics is the whole content of the claims;
* external library calls whose numeric content is not part of this module
  (`torch.linalg.cholesky`, the `exp` applied by `LowerCholeskyTransform`)
  are parameters of the embedding;
* fallible operations return `Option`/`Except`, mirroring the Python
  exceptions (`AssertionError`, `RuntimeError`, `NotImplementedError`,
  index errors).
-/

namespace UtilMatrix

/-- Vectors (one tensor axis) over exact rationals. -/
abbrev Vec : Type := List ℚ

/-- Square matrices as total functions on indices; the dimension is passed
separately where the source reads `shape[-1]`. -/
abbrev Mat : Type := ℕ → ℕ → ℚ

/-- Model of `torch.tril_indices(n, n, -1)`: the strictly-lower-triangular
index pairs `(row, col)`, `col < row`, of an `n × n` matrix, enumerated in
row-major order (row outer, column inner). -/
def tril_indices (n : ℕ) : List (ℕ × ℕ) :=
  (List.range n).flatMap (fun i => (List.range i).map (fun j => (i, j)))

/-- Number of strictly-lower-triangular entries, defined by the row
recursion; equals `n * (n - 1) / 2`. -/
def trilLen : ℕ → ℕ
  | 0 => 0
  | n + 1 => trilLen n + n

/-- Model of `param_diag.diag_embed()`: the square matrix of size
`d.length` with `d` on the diagonal and zeros elsewhere. -/
def diag_embed (d : Vec) : Mat :=
  fun i j => if i = j ∧ i < d.length then d.getD i 0 else 0

/-- Overwrite a single matrix entry. -/
def setEntry (M : Mat) (r c : ℕ) (v : ℚ) : Mat :=
  fun i j => if i = r ∧ j = c then v else M i j

/-- Scatter assignment `L[row, col] = values`, carried out pairwise:
the model of the advanced-indexing store `L[..., row, col] = off_diag`. -/
def setEntries : Mat → List ((ℕ × ℕ) × ℚ) → Mat
  | M, [] => M
  | M, (p, v) :: rest => setEntries (setEntry M p.1 p.2 v) rest

/-- Embedding of `build_lower_matrix(param_diag, param_off_diag)`:
`L = param_diag.diag_embed()`, then if the off-diagonal vector is present,
`L[row, col] = param_off_diag` at `tril_indices(dim, dim, -1)`. -/
def build_lower_matrix (param_diag : Vec) (param_off_diag : Option Vec) : Mat :=
  let dim_pred := param_diag.length
  let L := diag_embed param_diag
  match param_off_diag with
  | none => L
  | some off => setEntries L ((tril_indices dim_pred).zip off)

/-- Model of `torch.diagonal(L, dim1=-2, dim2=-1)` for an `n × n` matrix. -/
def diagonal (L : Mat) (n : ℕ) : Vec :=
  (List.range n).map (fun i => L i i)

/-- Embedding of `reverse_build_matrix(L, has_off_diag)`; `n` is
`L.shape[-1]`. Extracts the diagonal, and when `has_off_diag` also the
entries at `tril_indices(n, n, -1)`. -/
def reverse_build_matrix (L : Mat) (n : ℕ) (has_off_diag : Bool) :
    Vec × Option Vec :=
  let param_diag := diagonal L n
  if has_off_diag then
    (param_diag, some ((tril_indices n).map (fun p => L p.1 p.2)))
  else
    (param_diag, none)

/-- Model of `mat.tril(-1)` restricted to the entries the claims read:
keep the strictly-lower part, zero elsewhere. -/
def tril_strict (M : Mat) : Mat :=
  fun i j => if j < i then M i j else 0

/-- Entrywise matrix sum. -/
def matAdd (A B : Mat) : Mat := fun i j => A i j + B i j

/-- Embedding of `transform_to_cholesky(mat)`, i.e. of torch's
`LowerCholeskyTransform`: `mat.tril(-1) + dexp(diag(mat)).diag_embed()`.
The map applied to the diagonal (`exp` in torch) is an external-library
function and enters as the parameter `dexp`. -/
def transform_to_cholesky (dexp : ℚ → ℚ) (n : ℕ) (mat : Mat) : Mat :=
  matAdd (tril_strict mat) (diag_embed ((diagonal mat n).map dexp))

/-- The Python exceptions surfaced by this module. -/
inductive PyErr where
  | assertionError : PyErr
  | runtimeError : PyErr
  | notImplementedError : PyErr
deriving DecidableEq

/-- Embedding of `to_cholesky(diag_vector, off_diag_vector, L, cov_matrix)`.
The external factorization `torch.linalg.cholesky` is the parameter
`chol`. The `if/elif` chain of the source is mirrored branch for branch. -/
def to_cholesky (chol : Mat → Mat) (diag_vector : Option Vec)
    (off_diag_vector : Option Vec) (L : Option Mat) (cov_matrix : Option Mat) :
    Except PyErr Mat :=
  match L with
  | some L0 => Except.ok L0
  | none =>
    match cov_matrix with
    | none =>
      match diag_vector, off_diag_vector with
      | some d, some o => Except.ok (build_lower_matrix d (some o))
      | _, _ => Except.error PyErr.assertionError
    | some cov =>
      match diag_vector, off_diag_vector with
      | none, none => Except.ok (chol cov)
      | _, _ => Except.error PyErr.runtimeError

/-- The runtime type of the `data` argument of `add_expand_dim`, as
discriminated by the source's `type(data) == ...` checks. -/
inductive ArrayKind where
  | torchTensor : ArrayKind
  | torchParameter : ArrayKind
  | npNdarray : ArrayKind
  | unsupportedKind : ArrayKind
deriving DecidableEq

/-- Which of the two `eval` branches `add_expand_dim` finishes in. -/
inductive ExpandPath where
  | torchExpand : ExpandPath
  | npTile : ExpandPath
deriving DecidableEq

/-- Condition of the source's
`if dim in add_dim_indices or dim in add_dim_reverse_indices`, where
`add_dim_reverse_indices = [num_data_dim + num_dim_to_add + idx for idx in
add_dim_indices]` and `nk = num_data_dim + num_dim_to_add`. -/
def coveredDim (add_dim_indices : List ℤ) (nk : ℕ) (d : ℕ) : Bool :=
  decide ((d : ℤ) ∈ add_dim_indices) ||
    decide ((d : ℤ) ∈ add_dim_indices.map (fun idx => (nk : ℤ) + idx))

/-- The string-building loop of `add_expand_dim`, processing the dims of
`range(num_data_dim + num_dim_to_add)` in order. The accumulator carries
`(str_add_dim, str_expand, add_dim_index)`. `NotImplementedError` is raised
the first time a non-inserted position is reached with an unsupported
array kind. -/
def expandLoop (kind : ArrayKind) (add_dim_indices add_dim_sizes : List ℤ)
    (nk : ℕ) : List ℕ → String × String × ℕ →
    Except PyErr (String × String × ℕ)
  | [], acc => Except.ok acc
  | d :: rest, (sa, se, ai) =>
    if coveredDim add_dim_indices nk d then
      expandLoop kind add_dim_indices add_dim_sizes nk rest
        (sa ++ "None, ", se ++ toString (add_dim_sizes.getD ai 0) ++ ", ",
          ai + 1)
    else
      match kind with
      | ArrayKind.torchTensor =>
          expandLoop kind add_dim_indices add_dim_sizes nk rest
            (sa ++ ":, ", se ++ "-1, ", ai)
      | ArrayKind.torchParameter =>
          expandLoop kind add_dim_indices add_dim_sizes nk rest
            (sa ++ ":, ", se ++ "-1, ", ai)
      | ArrayKind.npNdarray =>
          expandLoop kind add_dim_indices add_dim_sizes nk rest
            (sa ++ ":, ", se ++ "1, ", ai)
      | ArrayKind.unsupportedKind => Except.error PyErr.notImplementedError

/-- Embedding of the observable control flow of
`add_expand_dim(data, add_dim_indices, add_dim_sizes)`: the data enters as
its runtime kind and rank, the result is the pair of built index/expand
strings together with which `eval` branch is taken (torch `expand` for
tensors/parameters, `np.tile` otherwise). -/
def add_expand_dim (kind : ArrayKind) (num_data_dim : ℕ)
    (add_dim_indices add_dim_sizes : List ℤ) :
    Except PyErr (ExpandPath × String × String) :=
  let nk := num_data_dim + add_dim_indices.length
  match expandLoop kind add_dim_indices add_dim_sizes nk
      (List.range nk) ("", "", 0) with
  | Except.error e => Except.error e
  | Except.ok (sa, se, _) =>
    match kind with
    | ArrayKind.torchTensor =>
        Except.ok (ExpandPath.torchExpand, "data[" ++ sa ++ "]", se)
    | ArrayKind.torchParameter =>
        Except.ok (ExpandPath.torchExpand, "data[" ++ sa ++ "]", se)
    | _ => Except.ok (ExpandPath.npTile, "data[" ++ sa ++ "]", se)

/-- Model of `torch.linspace(a, b, steps)` over exact rationals:
`steps` evenly spaced values from `a` to `b` inclusive (a single value `a`
when `steps = 1`). -/
def linspace (a b : ℚ) (steps : ℕ) : List ℚ :=
  if steps = 1 then [a]
  else (List.range steps).map
    (fun k : ℕ => a + (b - a) * (k : ℚ) / ((steps : ℚ) - 1))

/-- A `start`/`end` argument of `tensor_linspace`: a Python scalar or a
tensor (one data axis; batch axes are dropped as everywhere else). -/
inductive TLValue where
  | scalar : ℚ → TLValue
  | tensor : List ℚ → TLValue
deriving DecidableEq

/-- Result of `tensor_linspace`: 1-D when both arguments are scalars
(plain `torch.linspace`), 2-D otherwise. -/
inductive TLResult where
  | vec : List ℚ → TLResult
  | mat : List (List ℚ) → TLResult
deriving DecidableEq

/-- Core of `tensor_linspace` on two equal-length tensors, including the
final `einsum('...ji->...ij', out)` transpose of the source: the OUTER
index of the result is the steps axis, the inner index is the data axis.
Entry `[k][p]` is `start_w[k] * start[p] + end_w[k] * end[p]` with
`start_w = linspace(1, 0, steps)`, `end_w = linspace(0, 1, steps)`. -/
def tensor_linspace_core (s e : List ℚ) (steps : ℕ) : List (List ℚ) :=
  (List.range steps).map (fun k =>
    (s.zip e).map (fun ab =>
      (linspace 1 0 steps).getD k 0 * ab.1 +
        (linspace 0 1 steps).getD k 0 * ab.2))

/-- Embedding of `tensor_linspace(start, end, steps)`: the four
`isinstance` cases of the source. A scalar paired with a tensor is
broadcast (`end += torch.zeros_like(start)`), two tensors must have equal
sizes (`assert start.size() == end.size()`, modelled as `none`), and two
scalars fall through to plain `torch.linspace`. -/
def tensor_linspace (start end_ : TLValue) (steps : ℕ) : Option TLResult :=
  match start, end_ with
  | TLValue.tensor s, TLValue.scalar x =>
      some (TLResult.mat (tensor_linspace_core s (s.map (fun _ => x)) steps))
  | TLValue.scalar x, TLValue.tensor e =>
      some (TLResult.mat (tensor_linspace_core (e.map (fun _ => x)) e steps))
  | TLValue.tensor s, TLValue.tensor e =>
      if s.length = e.length then
        some (TLResult.mat (tensor_linspace_core s e steps))
      else none
  | TLValue.scalar a, TLValue.scalar b =>
      some (TLResult.vec (linspace a b steps))

/-- Sequential fallible map over a list (the `Option` instance of a
monadic map, written out so its equations are plain): the result is `none`
exactly when `f` fails on some element. -/
def optionMapM {α β : Type} (f : α → Option β) : List α → Option (List β)
  | [] => some []
  | a :: l => (f a).bind (fun b => (optionMapM f l).map (fun bs => b :: bs))

/-- Model of indexing a tensor's leading axis with a (possibly negative)
integer index, with Python/torch wrap-around for negatives and an error
outside `[-len, len)`. -/
def pyGet {α : Type} (l : List α) (idx : ℤ) : Option α :=
  if idx < 0 then
    if idx + (l.length : ℤ) < 0 then none
    else l[(idx + (l.length : ℤ)).toNat]?
  else l[idx.toNat]?

/-- Model of `torch.clip(x, lo, hi)` on integers:
`min (max x lo) hi` (so when `lo > hi` every input maps to `hi`). -/
def clip (x lo hi : ℤ) : ℤ := min (max x lo) hi

/-- Elementwise `torch.lerp(a, b, w) = a + w * (b - a)` on two rows, the
broadcast of the scalar weight over the trailing data axes being what
`add_expand_dim` achieves in the source. -/
def lerpRow (a b : List ℚ) (w : ℚ) : List ℚ :=
  List.zipWith (fun x y => x + w * (y - x)) a b

/-- Embedding of `indexing_interpolate(data, indices)`: rows of `data` are
the slices along the leading axis, indices are exact rationals (floats in
the source). For each index `i`:
`i0 = clip(floor(i), 0, num_data - 2)` (note `num_data - 2` is `-1` for a
single-row tensor), `i1 = i0 + 1`, weight `i - i0`, result
`lerp(data[i0], data[i1], w)`. Any invalid row access is `none`. -/
def indexing_interpolate (data : List (List ℚ)) (indices : List ℚ) :
    Option (List (List ℚ)) :=
  optionMapM (fun i =>
    let i0 : ℤ := clip ⌊i⌋ 0 ((data.length : ℤ) - 2)
    let i1 : ℤ := i0 + 1
    let w : ℚ := i - (i0 : ℚ)
    (pyGet data i0).bind (fun r0 =>
      (pyGet data i1).map (fun r1 => lerpRow r0 r1 w))) indices

/-- Arbitrary-rank tensors for the generic slicing helper. -/
inductive Tensor where
  | scal : ℚ → Tensor
  | arr : List Tensor → Tensor

/-- Rank of a tensor, read off the spine of first children
(tensors of interest are rectangular). -/
def Tensor.ndim : Tensor → ℕ
  | Tensor.scal _ => 0
  | Tensor.arr [] => 1
  | Tensor.arr (t :: _) => t.ndim + 1

/-- Model of the single indexing operation `t[:, ..., :, idx]` with `d`
leading full-range colons: select `idx` along axis `d`, erroring when the
tensor has no axis `d` (Python's too-many-indices `IndexError`). -/
def select : ℕ → ℤ → Tensor → Option Tensor
  | _, _, Tensor.scal _ => none
  | 0, idx, Tensor.arr ts => pyGet ts idx
  | d + 1, idx, Tensor.arr ts =>
      (optionMapM (fun t => select d idx t) ts).map Tensor.arr

/-- Embedding of `get_sub_tensor(data, dims, indices)`: the source builds
the chained expression `data[sel 0][sel 1]...` where `sel k` has
`dims[k]` colons (after adding the ORIGINAL rank to a negative `dims[k]`;
a count that is still negative yields no colons at all, modelled by
`Int.toNat`), so each selection acts on the result of the previous one. -/
def get_sub_tensor (data : Tensor) (dims : List ℤ) (indices : List ℤ) :
    Option Tensor :=
  let nd : ℤ := (Tensor.ndim data : ℤ)
  (dims.zip indices).foldlM
    (fun acc di =>
      select (if di.1 < 0 then di.1 + nd else di.1).toNat di.2 acc) data

/-- Reference definition following the specification's words for
`get_sub_tensor`: a per-ORIGINAL-axis selector list, `none` meaning the
axis is kept full-range and `some i` meaning index `i` is selected along
it; axes beyond the list's length are kept. -/
def multiSelect : List (Option ℤ) → Tensor → Option Tensor
  | [], t => some t
  | none :: rest, Tensor.arr ts =>
      (optionMapM (fun t => multiSelect rest t) ts).map Tensor.arr
  | some i :: rest, Tensor.arr ts =>
      (pyGet ts i).bind (fun t => multiSelect rest t)
  | _ :: _, Tensor.scal _ => none

/-- Concrete `3 × 4 × 5` test tensor with entry `100*i + 10*j + k` at
position `(i, j, k)`. -/
def exTensor3 : Tensor :=
  Tensor.arr ((List.range 3).map (fun i =>
    Tensor.arr ((List.range 4).map (fun j =>
      Tensor.arr ((List.range 5).map (fun k =>
        Tensor.scal ((100 * i + 10 * j + k : ℕ) : ℚ)))))))

/-- Concrete interpolation test data of shape `[5]` (rows are
singletons): values `0, 10, 20, 30, 40`. -/
def exInterpData : List (List ℚ) := [[0], [10], [20], [30], [40]]

/-! Lemmas about the lower-triangular enumeration. -/

lemma tril_indices_succ (n : ℕ) :
    tril_indices (n + 1) =
      tril_indices n ++ (List.range n).map (fun j => (n, j)) := by
  simp [tril_indices, List.range_succ]

lemma mem_tril_indices {n : ℕ} {p : ℕ × ℕ} :
    p ∈ tril_indices n ↔ p.1 < n ∧ p.2 < p.1 := by
  obtain ⟨i, j⟩ := p
  simp only [tril_indices, List.mem_flatMap, List.mem_map, List.mem_range]
  constructor
  · rintro ⟨a, ha, b, hb, h⟩
    cases h
    exact ⟨ha, hb⟩
  · rintro ⟨hi, hj⟩
    exact ⟨i, hi, j, hj, rfl⟩

lemma length_tril (n : ℕ) : (tril_indices n).length = trilLen n := by
  induction n with
  | zero => rfl
  | succ m ih =>
    rw [tril_indices_succ]
    simp [ih, trilLen]

lemma trilLen_mul_two (n : ℕ) : trilLen n * 2 = n * (n - 1) := by
  induction n with
  | zero => rfl
  | succ m ih =>
    show (trilLen m + m) * 2 = (m + 1) * m
    rw [Nat.add_mul, ih]
    cases m with
    | zero => rfl
    | succ k =>
      simp only [Nat.succ_sub_one]
      ring

lemma trilLen_eq (n : ℕ) : trilLen n = n * (n - 1) / 2 := by
  have h := trilLen_mul_two n
  generalize n * (n - 1) = m at h ⊢
  omega

lemma trilLen_mono {i n : ℕ} (h : i ≤ n) : trilLen i ≤ trilLen n := by
  induction n with
  | zero =>
    cases Nat.le_zero.mp h
    exact le_refl _
  | succ m ih =>
    rcases Nat.eq_or_lt_of_le h with rfl | hlt
    · exact le_refl _
    · exact le_trans (ih (Nat.lt_succ_iff.mp hlt)) (Nat.le_add_right _ _)

lemma tril_indices_nodup (n : ℕ) : (tril_indices n).Nodup := by
  induction n with
  | zero => simp [tril_indices]
  | succ m ih =>
    rw [tril_indices_succ]
    refine List.Nodup.append ih ?_ ?_
    · exact List.Nodup.map (fun a b h => congrArg Prod.snd h) (List.nodup_range m)
    · intro p hp hq
      have h1 := (mem_tril_indices.mp hp).1
      simp only [List.mem_map, List.mem_range] at hq
      obtain ⟨j, _, hj⟩ := hq
      rw [← hj] at h1
      exact absurd h1 (lt_irrefl m)

lemma tril_getElem? {n i j : ℕ} (hj : j < i) (hi : i < n) :
    (tril_indices n)[trilLen i + j]? = some (i, j) := by
  induction n with
  | zero => omega
  | succ m ih =>
    rw [tril_indices_succ]
    rcases Nat.lt_succ_iff_lt_or_eq.mp hi with h | h
    · have hb : trilLen i + j < (tril_indices m).length := by
        rw [length_tril]
        have h1 : trilLen i + j < trilLen (i + 1) := by
          show trilLen i + j < trilLen i + i
          omega
        exact lt_of_lt_of_le h1 (trilLen_mono h)
      rw [List.getElem?_append, if_pos hb]
      exact ih h
    · subst h
      have hb : ¬ trilLen i + j < (tril_indices i).length := by
        rw [length_tril]
        omega
      rw [List.getElem?_append, if_neg hb, length_tril,
        Nat.add_sub_cancel_left]
      rw [List.getElem?_map, List.getElem?_range hj]
      rfl

/-! Lemmas about scatter assignment. -/

lemma setEntries_notMem {l : List ((ℕ × ℕ) × ℚ)} {M : Mat} {r c : ℕ}
    (h : ∀ pv ∈ l, pv.1 ≠ (r, c)) : setEntries M l r c = M r c := by
  induction l generalizing M with
  | nil => rfl
  | cons pv rest ih =>
    obtain ⟨⟨a, b⟩, v⟩ := pv
    show setEntries (setEntry M a b v) rest r c = M r c
    rw [ih (fun q hq => h q (List.mem_cons_of_mem _ hq))]
    have hne : ¬(r = a ∧ c = b) := by
      rintro ⟨h1, h2⟩
      exact h ⟨(a, b), v⟩ (List.mem_cons_self _ _) (by simp [h1, h2])
    simp [setEntry, hne]

lemma setEntries_zip_read {idx : List (ℕ × ℕ)} {v : List ℚ} {M : Mat} {k : ℕ}
    {p : ℕ × ℕ} (hnd : idx.Nodup) (hk : idx[k]? = some p) (hv : k < v.length) :
    setEntries M (idx.zip v) p.1 p.2 = v.getD k 0 := by
  induction idx generalizing M k v with
  | nil => simp at hk
  | cons q rest ih =>
    cases v with
    | nil => simp at hv
    | cons v0 vs =>
      cases k with
      | zero =>
        have hq : q = p := by simpa using hk
        subst hq
        show setEntries (setEntry M q.1 q.2 v0) (rest.zip vs) q.1 q.2 = _
        rw [setEntries_notMem ?_]
        · simp [setEntry]
        · rintro ⟨pq, pw⟩ hpv hEq
          have hmem : pq ∈ rest := (List.of_mem_zip hpv).1
          have hnq : q ∉ rest := (List.nodup_cons.mp hnd).1
          rw [show pq = q from hEq] at hmem
          exact hnq hmem
      | succ k' =>
        have hk' : rest[k']? = some p := by simpa using hk
        exact ih (List.nodup_cons.mp hnd).2 hk' (by simpa using hv)

/-! Entry-level description of `build_lower_matrix`. -/

lemma build_lower_matrix_some_eq (d o : Vec) :
    build_lower_matrix d (some o) =
      setEntries (diag_embed d) ((tril_indices d.length).zip o) := rfl

lemma build_lower_diag_entry (d : Vec) (off : Option Vec) (i : ℕ) :
    build_lower_matrix d off i i = diag_embed d i i := by
  cases off with
  | none => rfl
  | some o =>
    rw [build_lower_matrix_some_eq]
    apply setEntries_notMem
    rintro ⟨pq, pw⟩ hpv hEq
    have h1 : pq ∈ tril_indices d.length := (List.of_mem_zip hpv).1
    have h2 := (mem_tril_indices.mp h1).2
    have h3 : pq = (i, i) := hEq
    rw [h3] at h2
    simp at h2

lemma diagonal_build (d : Vec) (off : Option Vec) :
    diagonal (build_lower_matrix d off) d.length = d := by
  apply List.ext_getElem
  · simp [diagonal]
  · intro k h1 h2
    simp only [diagonal, List.getElem_map, List.getElem_range]
    rw [build_lower_diag_entry]
    simp only [diagonal, List.length_map, List.length_range] at h2
    simp [diag_embed, h2, List.getD_eq_getElem]

lemma gather_build (d o : Vec) (h : o.length = (tril_indices d.length).length) :
    (tril_indices d.length).map
      (fun p => build_lower_matrix d (some o) p.1 p.2) = o := by
  apply List.ext_getElem
  · simp [h]
  · intro k h1 h2
    simp only [List.getElem_map]
    have hread := setEntries_zip_read (M := diag_embed d)
      (tril_indices_nodup d.length)
      (List.getElem?_eq_getElem
        (show k < (tril_indices d.length).length by simpa using h1)) h2
    exact hread.trans (List.getD_eq_getElem o 0 h2)

/-- C1: `reverse_build_matrix` and `build_lower_matrix` are exact inverses
for matching `has_off_diag` flags: for a diagonal vector of length `dim`
and an off-diagonal vector of length `dim*(dim-1)/2`,
`reverse_build_matrix (build_lower_matrix d (some o)) dim true = (d, some o)`,
and without the off-diagonal argument,
`reverse_build_matrix (build_lower_matrix d none) dim false = (d, none)`. -/
theorem build_reverse_roundtrip (dim : ℕ) (d o : Vec)
    (hd : d.length = dim) (ho : o.length = dim * (dim - 1) / 2) :
    reverse_build_matrix (build_lower_matrix d (some o)) dim true
        = (d, some o) ∧
    reverse_build_matrix (build_lower_matrix d none) dim false
        = (d, none) := by
  subst hd
  have hlen : o.length = (tril_indices d.length).length := by
    rw [length_tril, trilLen_eq]
    exact ho
  constructor
  · simp only [reverse_build_matrix, if_true]
    rw [diagonal_build, gather_build d o hlen]
  · simp only [reverse_build_matrix, Bool.false_eq_true, if_false]
    rw [diagonal_build]

/-- C1 witness: the round trip evaluated at `dim = 3`,
`d = [1, 2, 3]`, `o = [4, 5, 6]`. -/
theorem build_reverse_roundtrip_witness :
    reverse_build_matrix (build_lower_matrix [1, 2, 3] (some [4, 5, 6])) 3 true
        = ([1, 2, 3], some [4, 5, 6]) ∧
    reverse_build_matrix (build_lower_matrix [1, 2, 3] none) 3 false
        = ([1, 2, 3], none) :=
  build_reverse_roundtrip 3 [1, 2, 3] [4, 5, 6] rfl rfl

/-- C6: entrywise description of the assembled matrices. For vectors of the
stated lengths, `build_lower_matrix d (some o)` has diagonal `d`, its
strictly-lower entry `(i, j)` is `o` at the canonical row-major position
`i*(i-1)/2 + j`, and its strictly-upper entries are `0`; with the
off-diagonal vector absent the off-diagonal entries are all `0`; and the
output of `transform_to_cholesky` has all strictly-upper entries `0`. -/
theorem build_lower_matrix_entries (dim : ℕ) (d o : Vec)
    (hd : d.length = dim) (ho : o.length = dim * (dim - 1) / 2)
    (i j : ℕ) (hi : i < dim) (hj : j < dim) :
    (i = j → build_lower_matrix d (some o) i j = d.getD i 0) ∧
    (j < i → build_lower_matrix d (some o) i j
        = o.getD (i * (i - 1) / 2 + j) 0) ∧
    (i < j → build_lower_matrix d (some o) i j = 0) ∧
    (i ≠ j → build_lower_matrix d none i j = 0) ∧
    (∀ (dexp : ℚ → ℚ) (M : Mat), i < j →
      transform_to_cholesky dexp dim M i j = 0) := by
  subst hd
  have ho' : o.length = trilLen d.length := by
    rw [trilLen_eq]
    exact ho
  refine ⟨?_, ?_, ?_, ?_, ?_⟩
  · rintro rfl
    rw [build_lower_diag_entry]
    simp [diag_embed, hi]
  · intro hji
    have hk : (tril_indices d.length)[trilLen i + j]? = some (i, j) :=
      tril_getElem? hji hi
    have hv : trilLen i + j < o.length := by
      rw [ho']
      have h1 : trilLen i + j < trilLen (i + 1) := by
        show trilLen i + j < trilLen i + i
        omega
      exact lt_of_lt_of_le h1 (trilLen_mono hi)
    have hread := setEntries_zip_read (M := diag_embed d)
      (tril_indices_nodup d.length) hk hv
    rw [build_lower_matrix_some_eq]
    exact hread.trans (by rw [trilLen_eq])
  · intro hij
    rw [build_lower_matrix_some_eq]
    rw [setEntries_notMem ?_]
    · simp [diag_embed, Nat.ne_of_lt hij]
    · rintro ⟨pq, pw⟩ hpv hEq
      have h1 : pq ∈ tril_indices d.length := (List.of_mem_zip hpv).1
      have h2 := (mem_tril_indices.mp h1).2
      have h3 : pq = (i, j) := hEq
      rw [h3] at h2
      simp only at h2
      omega
  · intro hij
    show diag_embed d i j = 0
    simp [diag_embed, hij]
  · intro dexp M hij
    show tril_strict M i j + diag_embed _ i j = 0
    rw [tril_strict, diag_embed]
    simp [Nat.not_lt.mpr (le_of_lt hij), Nat.ne_of_lt hij]

/-- C6 witness: the entry description evaluated at `dim = 3`,
`d = [1, 2, 3]`, `o = [4, 5, 6]`, at positions on, below and above the
diagonal. -/
theorem build_lower_matrix_entries_witness :
    build_lower_matrix [1, 2, 3] (some [4, 5, 6]) 1 1 = 2 ∧
    build_lower_matrix [1, 2, 3] (some [4, 5, 6]) 2 1
      = [4, 5, 6].getD (2 * (2 - 1) / 2 + 1) 0 ∧
    build_lower_matrix [1, 2, 3] (some [4, 5, 6]) 1 2 = 0 ∧
    build_lower_matrix [1, 2, 3] none 1 2 = 0 ∧
    transform_to_cholesky (fun x => x) 3 (fun _ _ => 9) 1 2 = 0 := by
  obtain ⟨h1, h2, h3, h4, h5⟩ :=
    build_lower_matrix_entries 3 [1, 2, 3] [4, 5, 6] rfl rfl 1 2
      (by decide) (by decide)
  obtain ⟨g1, g2, g3, g4, g5⟩ :=
    build_lower_matrix_entries 3 [1, 2, 3] [4, 5, 6] rfl rfl 2 1
      (by decide) (by decide)
  exact ⟨(build_lower_matrix_entries 3 [1, 2, 3] [4, 5, 6] rfl rfl 1 1
      (by decide) (by decide)).1 rfl,
    g2 (by decide), h3 (by decide), h4 (by decide),
    h5 (fun x => x) (fun _ _ => 9) (by decide)⟩

/-- C8: `reverse_build_matrix` never inspects the strictly-upper entries of
its input: two matrices agreeing on the diagonal and strictly-lower part
(within the size `n`) decompose identically for either flag, with no
validation of lower-triangularity. -/
theorem reverse_build_ignores_upper (n : ℕ) (b : Bool) (M M' : Mat)
    (h : ∀ i, i < n → ∀ j, j ≤ i → M i j = M' i j) :
    reverse_build_matrix M n b = reverse_build_matrix M' n b := by
  have hdiag : diagonal M n = diagonal M' n := by
    apply List.map_congr_left
    intro i hi
    exact h i (List.mem_range.mp hi) i (le_refl i)
  have hmap : (tril_indices n).map (fun p => M p.1 p.2)
      = (tril_indices n).map (fun p => M' p.1 p.2) := by
    apply List.map_congr_left
    intro p hp
    obtain ⟨h1, h2⟩ := mem_tril_indices.mp hp
    exact h p.1 h1 p.2 (le_of_lt h2)
  cases b with
  | false => simp [reverse_build_matrix, hdiag]
  | true => simp [reverse_build_matrix, hdiag, hmap]

/-- C8 witness: two `3 × 3` matrices differing only strictly above the
diagonal decompose identically. -/
theorem reverse_build_ignores_upper_witness :
    reverse_build_matrix
        (fun i j => if i < j then 5 else (0 : ℚ)) 3 true
      = reverse_build_matrix
        (fun i j => if i < j then 7 else (0 : ℚ)) 3 true :=
  reverse_build_ignores_upper 3 true _ _
    (fun i _ j hj => by rw [if_neg (not_lt.mpr hj), if_neg (not_lt.mpr hj)])

/-- C2: the dispatch of `to_cholesky`, branch by branch: a given `L` is
returned unchanged whatever else is passed; with `L` and `cov_matrix`
absent, both vectors present build via `build_lower_matrix` and anything
else is an assertion error; with `L` absent and `cov_matrix` present, both
vectors absent factorizes `cov_matrix`, and any present vector is a
generic runtime error. -/
theorem to_cholesky_dispatch (chol : Mat → Mat) (dv ov : Option Vec)
    (L cov : Option Mat) :
    (∀ L0, L = some L0 → to_cholesky chol dv ov L cov = Except.ok L0) ∧
    (L = none → cov = none → ∀ d o, dv = some d → ov = some o →
      to_cholesky chol dv ov L cov
        = Except.ok (build_lower_matrix d (some o))) ∧
    (L = none → cov = none → (dv = none ∨ ov = none) →
      to_cholesky chol dv ov L cov = Except.error PyErr.assertionError) ∧
    (L = none → ∀ c, cov = some c → dv = none → ov = none →
      to_cholesky chol dv ov L cov = Except.ok (chol c)) ∧
    (L = none → ∀ c, cov = some c → (dv ≠ none ∨ ov ≠ none) →
      to_cholesky chol dv ov L cov = Except.error PyErr.runtimeError) := by
  refine ⟨?_, ?_, ?_, ?_, ?_⟩
  · rintro L0 rfl
    rfl
  · rintro rfl rfl d o rfl rfl
    rfl
  · rintro rfl rfl h
    rcases h with rfl | rfl
    · cases ov <;> rfl
    · cases dv <;> rfl
  · rintro rfl c rfl rfl rfl
    rfl
  · rintro rfl c rfl h
    rcases h with h | h
    · cases dv with
      | none => exact absurd rfl h
      | some d => cases ov <;> rfl
    · cases ov with
      | none => exact absurd rfl h
      | some o => cases dv <;> rfl

/-- C2 witness: a provided `L` wins unconditionally, evaluated at concrete
arguments. -/
theorem to_cholesky_dispatch_witness :
    to_cholesky (fun M => M) (some [1]) (some [2]) (some (fun _ _ => 5)) none
      = Except.ok (fun _ _ => 5) :=
  (to_cholesky_dispatch (fun M => M) (some [1]) (some [2])
    (some (fun _ _ => 5)) none).1 (fun _ _ => 5) rfl

/-! Lemmas about `indexing_interpolate`. -/

lemma mapM_eq_map_of_some {α β : Type} (f : α → Option β) (g : α → β) :
    ∀ l : List α, (∀ a ∈ l, f a = some (g a)) →
      optionMapM f l = some (l.map g)
  | [], _ => rfl
  | a :: l, h => by
    have ha := h a (List.mem_cons_self _ _)
    have hl := mapM_eq_map_of_some f g l
      (fun b hb => h b (List.mem_cons_of_mem _ hb))
    simp [optionMapM, ha, hl]

lemma pyGet_nonneg {α : Type} (l : List α) (idx : ℤ) (h0 : 0 ≤ idx) :
    pyGet l idx = l[idx.toNat]? := by
  simp [pyGet, not_lt.mpr h0]

lemma lerpRow_self (r : List ℚ) (w : ℚ) : lerpRow r r w = r := by
  simp [lerpRow]

/-- C3 counterexample: on data `[0, 10, 20, 30, 40]` the function does NOT
clamp to the boundary values: index `-1.0` yields `-10.0` (not `0.0`) and
index `10.0` yields `100.0` (not `40.0`), because only the base row pair is
clamped while the interpolation weight `i - i0` is not; the in-range index
`1.5` does yield `15.0`. -/
theorem indexing_interpolate_no_clamp_cex :
    indexing_interpolate exInterpData [-1, 10, 3 / 2]
        = some [[-10], [100], [15]] ∧
    indexing_interpolate exInterpData [-1] ≠ some [[0]] ∧
    indexing_interpolate exInterpData [10] ≠ some [[40]] := by
  refine ⟨?_, ?_, ?_⟩ <;>
    norm_num [indexing_interpolate, clip, pyGet, lerpRow, exInterpData,
      optionMapM, max_def, min_def, Int.toNat,
      -List.getElem?_eq_getElem, List.getElem?_cons_zero,
      List.getElem?_cons_succ, Option.bind]

/-- C3 amended: for `num_data ≥ 2` no index raises an error and every
result row is `lerp(data[i0], data[i0 + 1], i - i0)` where only the base
index `i0 = clip(floor(i), 0, num_data - 2)` is clamped; the weight
`i - i0` is NOT clamped, so out-of-range indices extrapolate linearly from
the boundary row pair (in-range indices interpolate as the claim states). -/
theorem indexing_interpolate_clamped_base (data : List (List ℚ))
    (idx : List ℚ) (h2 : 2 ≤ data.length) :
    indexing_interpolate data idx = some (idx.map (fun i =>
      lerpRow (data.getD (clip ⌊i⌋ 0 ((data.length : ℤ) - 2)).toNat [])
        (data.getD ((clip ⌊i⌋ 0 ((data.length : ℤ) - 2)).toNat + 1) [])
        (i - ((clip ⌊i⌋ 0 ((data.length : ℤ) - 2) : ℤ) : ℚ)))) := by
  apply mapM_eq_map_of_some
  intro i _
  have h0 : (0 : ℤ) ≤ clip ⌊i⌋ 0 ((data.length : ℤ) - 2) := by
    have := le_max_right ⌊i⌋ (0 : ℤ)
    simp only [clip]
    omega
  have hup : clip ⌊i⌋ 0 ((data.length : ℤ) - 2) ≤ (data.length : ℤ) - 2 :=
    min_le_right _ _
  have ht0 : (clip ⌊i⌋ 0 ((data.length : ℤ) - 2)).toNat < data.length := by
    omega
  have ht1 : (clip ⌊i⌋ 0 ((data.length : ℤ) - 2)).toNat + 1 < data.length := by
    omega
  have hsucc : (clip ⌊i⌋ 0 ((data.length : ℤ) - 2) + 1).toNat
      = (clip ⌊i⌋ 0 ((data.length : ℤ) - 2)).toNat + 1 := by
    omega
  show (pyGet data (clip ⌊i⌋ 0 ((data.length : ℤ) - 2))).bind _ = _
  rw [pyGet_nonneg _ _ h0]
  rw [List.getElem?_eq_getElem ht0]
  show (pyGet data (clip ⌊i⌋ 0 ((data.length : ℤ) - 2) + 1)).map _ = _
  rw [pyGet_nonneg _ _ (by omega), hsucc, List.getElem?_eq_getElem ht1]
  simp [List.getD, List.getElem?_eq_getElem ht0, List.getElem?_eq_getElem ht1]

/-- C3 amended witness: the characterization applied to the concrete data
`[0, 10, 20, 30, 40]` and indices `-1`, `10`, `1.5`. -/
theorem indexing_interpolate_clamped_base_witness :
    indexing_interpolate exInterpData [-1, 10, 3 / 2]
      = some ([-1, 10, 3 / 2].map (fun i =>
        lerpRow
          (exInterpData.getD
            (clip ⌊i⌋ 0 ((exInterpData.length : ℤ) - 2)).toNat [])
          (exInterpData.getD
            ((clip ⌊i⌋ 0 ((exInterpData.length : ℤ) - 2)).toNat + 1) [])
          (i - ((clip ⌊i⌋ 0 ((exInterpData.length : ℤ) - 2) : ℤ) : ℚ)))) :=
  indexing_interpolate_clamped_base exInterpData [-1, 10, 3 / 2] (by decide)

/-- C9: with a single data row (`num_data = 1`) no index raises an error
and every output equals that row: the clamp upper bound `num_data - 2` is
`-1`, so the base index is `-1` and both selected rows are (by negative
wrap-around) the single row 0, making the weight irrelevant. -/
theorem indexing_interpolate_single_row (r : List ℚ) (idx : List ℚ) :
    indexing_interpolate [r] idx = some (idx.map (fun _ => r)) := by
  apply mapM_eq_map_of_some
  intro i _
  have h1 : clip ⌊i⌋ 0 ((([r] : List (List ℚ)).length : ℤ) - 2) = -1 := by
    simp only [clip, List.length_singleton]
    omega
  show (pyGet [r] (clip ⌊i⌋ 0 ((([r] : List (List ℚ)).length : ℤ) - 2))).bind
      _ = _
  rw [h1]
  show (some r).bind _ = _
  show (pyGet [r] ((-1 : ℤ) + 1)).map _ = _
  norm_num [pyGet, lerpRow_self]

/-! Lemmas about `tensor_linspace`. -/

lemma getD_map_range {α : Type} (f : ℕ → α) (d : α) {n k : ℕ} (hk : k < n) :
    ((List.range n).map f).getD k d = f k := by
  rw [List.getD_eq_getElem _ _ (by simpa using hk)]
  simp

lemma linspace_getD (a b : ℚ) (steps k : ℕ) (h2 : 2 ≤ steps)
    (hk : k < steps) :
    (linspace a b steps).getD k 0 = a + (b - a) * k / ((steps : ℚ) - 1) := by
  rw [linspace, if_neg (by omega), getD_map_range _ _ hk]

lemma steps_sub_one_ne {steps : ℕ} (h2 : 2 ≤ steps) :
    ((steps : ℚ) - 1) ≠ 0 := by
  have hs : (steps : ℚ) ≠ 1 := by
    intro hq
    have : steps = 1 := by exact_mod_cast hq
    omega
  intro hq
  apply hs
  linarith

lemma tensor_linspace_core_length (s e : List ℚ) (steps : ℕ) :
    (tensor_linspace_core s e steps).length = steps := by
  simp [tensor_linspace_core]

lemma tensor_linspace_core_row (s e : List ℚ) (steps k : ℕ) (hk : k < steps) :
    (tensor_linspace_core s e steps).getD k []
      = (s.zip e).map (fun ab =>
          (linspace 1 0 steps).getD k 0 * ab.1 +
            (linspace 0 1 steps).getD k 0 * ab.2) := by
  rw [tensor_linspace_core, getD_map_range _ _ hk]

lemma tensor_linspace_core_row_length (s e : List ℚ) (steps k : ℕ)
    (hk : k < steps) (hlen : s.length = e.length) :
    ((tensor_linspace_core s e steps).getD k []).length = s.length := by
  rw [tensor_linspace_core_row s e steps k hk]
  simp [hlen]

lemma tensor_linspace_core_entry (s e : List ℚ) (steps k p : ℕ)
    (h2 : 2 ≤ steps) (hk : k < steps) (hp : p < s.length)
    (hlen : s.length = e.length) :
    ((tensor_linspace_core s e steps).getD k []).getD p 0
      = s.getD p 0 + (e.getD p 0 - s.getD p 0) * k / ((steps : ℚ) - 1) := by
  have hpz : p < (s.zip e).length := by
    rw [List.length_zip, hlen, Nat.min_self]
    exact hlen ▸ hp
  rw [tensor_linspace_core_row s e steps k hk]
  rw [List.getD_eq_getElem _ _ (by simpa using hpz)]
  simp only [List.getElem_map, List.getElem_zip]
  simp only [linspace_getD 1 0 steps k h2 hk, linspace_getD 0 1 steps k h2 hk]
  simp only [List.getD_eq_getElem s 0 hp, List.getD_eq_getElem e 0 (hlen ▸ hp)]
  have hne := steps_sub_one_ne h2
  field_simp
  ring

lemma tensor_linspace_core_first (s e : List ℚ) (steps : ℕ)
    (h2 : 2 ≤ steps) (hlen : s.length = e.length) :
    (tensor_linspace_core s e steps).getD 0 [] = s := by
  have w1 : (linspace 1 0 steps).getD 0 0 = 1 := by
    rw [linspace_getD 1 0 steps 0 h2 (by omega)]
    simp
  have w0 : (linspace 0 1 steps).getD 0 0 = 0 := by
    rw [linspace_getD 0 1 steps 0 h2 (by omega)]
    simp
  rw [tensor_linspace_core_row s e steps 0 (by omega), w1, w0]
  simp only [one_mul, zero_mul, add_zero]
  show (s.zip e).map Prod.fst = s
  exact List.map_fst_zip s e (le_of_eq hlen)

lemma tensor_linspace_core_last (s e : List ℚ) (steps : ℕ)
    (h2 : 2 ≤ steps) (hlen : s.length = e.length) :
    (tensor_linspace_core s e steps).getD (steps - 1) [] = e := by
  have hne := steps_sub_one_ne h2
  have hcast : ((steps - 1 : ℕ) : ℚ) = (steps : ℚ) - 1 :=
    Nat.cast_sub (by omega)
  have w1 : (linspace 1 0 steps).getD (steps - 1) 0 = 0 := by
    rw [linspace_getD 1 0 steps (steps - 1) h2 (by omega), hcast,
      mul_div_assoc, div_self hne]
    ring
  have w0 : (linspace 0 1 steps).getD (steps - 1) 0 = 1 := by
    rw [linspace_getD 0 1 steps (steps - 1) h2 (by omega), hcast,
      mul_div_assoc, div_self hne]
    ring
  rw [tensor_linspace_core_row s e steps (steps - 1) (by omega), w1, w0]
  simp only [one_mul, zero_mul, zero_add]
  show (s.zip e).map Prod.snd = e
  exact List.map_snd_zip s e (le_of_eq hlen.symm)

/-- C4 counterexample: for `start = [0, 100]`, `end = [10, 110]`,
`steps = 3` the result is `[[0, 100], [5, 105], [10, 110]]` — the steps
axis is the LEADING axis of the produced matrix (the source transposes the
last two axes with `einsum`), not the trailing one: the result is not the
`start.shape + (steps,)` array `[[0, 5, 10], [100, 105, 110]]` the claim
describes, and its trailing-axis slice at index 0 is `[0, 5, 10] ≠ start`. -/
theorem tensor_linspace_trailing_axis_cex :
    tensor_linspace (TLValue.tensor [0, 100]) (TLValue.tensor [10, 110]) 3
        = some (TLResult.mat [[0, 100], [5, 105], [10, 110]]) ∧
    some (TLResult.mat [[0, 100], [5, 105], [10, 110]])
        ≠ some (TLResult.mat [[0, 5, 10], [100, 105, 110]]) := by
  constructor
  · norm_num [tensor_linspace, tensor_linspace_core, linspace,
      List.range_succ]
  · norm_num

/-- C4 amended: `tensor_linspace` on two equal-length tensors (or a tensor
and a broadcast scalar) produces, for `steps ≥ 2`, a matrix whose LEADING
axis is the steps axis: row `k` holds, at each data position `p`, the
value `start[p] + (end[p] - start[p]) * k / (steps - 1)`; row `0` equals
`start` and row `steps - 1` equals `end` (the steps axis sits before the
trailing data axis because of the final `einsum` transpose). -/
theorem tensor_linspace_steps_axis (s e : List ℚ) (steps : ℕ)
    (h2 : 2 ≤ steps) (hlen : s.length = e.length) :
    tensor_linspace (TLValue.tensor s) (TLValue.tensor e) steps
        = some (TLResult.mat (tensor_linspace_core s e steps)) ∧
    (∀ x : ℚ, tensor_linspace (TLValue.tensor s) (TLValue.scalar x) steps
        = some (TLResult.mat
            (tensor_linspace_core s (s.map (fun _ => x)) steps))) ∧
    (∀ x : ℚ, tensor_linspace (TLValue.scalar x) (TLValue.tensor e) steps
        = some (TLResult.mat
            (tensor_linspace_core (e.map (fun _ => x)) e steps))) ∧
    (tensor_linspace_core s e steps).length = steps ∧
    (∀ k, k < steps →
      ((tensor_linspace_core s e steps).getD k []).length = s.length) ∧
    (tensor_linspace_core s e steps).getD 0 [] = s ∧
    (tensor_linspace_core s e steps).getD (steps - 1) [] = e ∧
    (∀ k p, k < steps → p < s.length →
      ((tensor_linspace_core s e steps).getD k []).getD p 0
        = s.getD p 0 + (e.getD p 0 - s.getD p 0) * k / ((steps : ℚ) - 1)) :=
  ⟨by simp [tensor_linspace, hlen],
    fun x => rfl,
    fun x => rfl,
    tensor_linspace_core_length s e steps,
    fun k hk => tensor_linspace_core_row_length s e steps k hk hlen,
    tensor_linspace_core_first s e steps h2 hlen,
    tensor_linspace_core_last s e steps h2 hlen,
    fun k p hk hp => tensor_linspace_core_entry s e steps k p h2 hk hp hlen⟩

/-- C4 amended witness: the endpoint rows at `start = [0, 100]`,
`end = [10, 110]`, `steps = 3`. -/
theorem tensor_linspace_steps_axis_witness :
    (tensor_linspace_core [0, 100] [10, 110] 3).getD 0 [] = [0, 100] ∧
    (tensor_linspace_core [0, 100] [10, 110] 3).getD 2 [] = [10, 110] ∧
    tensor_linspace (TLValue.tensor [0, 100]) (TLValue.tensor [10, 110]) 3
      = some (TLResult.mat (tensor_linspace_core [0, 100] [10, 110] 3)) := by
  obtain ⟨h1, _, _, _, _, h6, h7, _⟩ :=
    tensor_linspace_steps_axis [0, 100] [10, 110] 3 (by omega) rfl
  exact ⟨h6, h7, h1⟩

/-! Lemmas about `get_sub_tensor` and the selector semantics. -/

lemma mapM_bind_mapM {α β γ : Type} (f : α → Option β) (g : β → Option γ) :
    ∀ l : List α,
      (optionMapM f l).bind (fun l2 => optionMapM g l2)
        = optionMapM (fun a => (f a).bind g) l
  | [] => rfl
  | a :: l => by
    have ih := mapM_bind_mapM f g l
    cases hfa : f a with
    | none => simp [optionMapM, hfa]
    | some b =>
      cases hl : optionMapM f l with
      | none =>
        cases hgb : g b with
        | none => simp [optionMapM, hfa, hl, hgb, ← ih]
        | some c => simp [optionMapM, hfa, hl, hgb, ← ih]
      | some bs =>
        cases hgb : g b with
        | none => simp [optionMapM, hfa, hl, hgb, ← ih]
        | some c => simp [optionMapM, hfa, hl, hgb, ← ih]

lemma multiSelect_cons_some (a : ℕ) (i : ℤ) (S : List (Option ℤ)) :
    ∀ t, multiSelect (List.replicate a none ++ some i :: S) t
      = (select a i t).bind
          (fun u => multiSelect (List.replicate a none ++ S) u) := by
  induction a with
  | zero =>
    intro t
    cases t with
    | scal x => rfl
    | arr ts => rfl
  | succ a ih =>
    intro t
    cases t with
    | scal x => rfl
    | arr ts =>
      show (optionMapM
          (fun t => multiSelect (List.replicate a none ++ some i :: S) t)
            ts).map Tensor.arr = _
      rw [funext ih]
      rw [← mapM_bind_mapM (fun t => select a i t)
        (fun u => multiSelect (List.replicate a none ++ S) u) ts]
      cases h : optionMapM (fun t => select a i t) ts with
      | none => simp [h, select]
      | some l => simp [h, select, multiSelect]

lemma multiSelect_replicate_single (d : ℕ) (j : ℤ) :
    ∀ t, multiSelect (List.replicate d none ++ [some j]) t = select d j t := by
  induction d with
  | zero =>
    intro t
    cases t with
    | scal x => rfl
    | arr ts =>
      show (pyGet ts j).bind (fun t => multiSelect [] t) = pyGet ts j
      cases pyGet ts j <;> rfl
  | succ d ih =>
    intro t
    cases t with
    | scal x => rfl
    | arr ts =>
      show (optionMapM
          (fun t => multiSelect (List.replicate d none ++ [some j]) t)
            ts).map Tensor.arr
        = (optionMapM (fun t => select d j t) ts).map Tensor.arr
      rw [funext ih]

/-- C10: with empty `dims` and `indices`, `get_sub_tensor` returns the
input tensor itself, unchanged. -/
theorem get_sub_tensor_empty (t : Tensor) : get_sub_tensor t [] [] = some t :=
  rfl

/-- C5 counterexample: for the `3 × 4 × 5` tensor with entries
`100i + 10j + k`, `get_sub_tensor(A, [0, 2], [1, 3])` errors (the second
selection `[:, :, 3]` is applied to the already-reduced rank-2 tensor
`A[1]`, which has too few axes), whereas the original-axis-numbering
selection `A[1, :, 3]` the claim promises exists and is the length-4
vector `[103, 113, 123, 133]`. -/
theorem get_sub_tensor_original_axes_cex :
    get_sub_tensor exTensor3 [0, 2] [1, 3] = none ∧
    multiSelect [some 1, none, some 3] exTensor3
      = some (Tensor.arr [Tensor.scal ((103 : ℕ) : ℚ),
          Tensor.scal ((113 : ℕ) : ℚ), Tensor.scal ((123 : ℕ) : ℚ),
          Tensor.scal ((133 : ℕ) : ℚ)]) ∧
    (none : Option Tensor) ≠ some (Tensor.arr [Tensor.scal ((103 : ℕ) : ℚ),
      Tensor.scal ((113 : ℕ) : ℚ), Tensor.scal ((123 : ℕ) : ℚ),
      Tensor.scal ((133 : ℕ) : ℚ)]) :=
  ⟨rfl, rfl, by simp⟩

/-- C5 amended: in `get_sub_tensor` each axis number refers to the array
as already reduced by the previous selections, not to the original axis
numbering: selecting original axes `a < b` requires passing `[a, b - 1]`,
which then agrees with the original-numbering selection (`some` at
original axes `a` and `b`, all other axes full-range). -/
theorem get_sub_tensor_progressive (t : Tensor) (a b : ℕ) (i j : ℤ)
    (hab : a < b) :
    get_sub_tensor t [(a : ℤ), ((b - 1 : ℕ) : ℤ)] [i, j]
      = multiSelect (List.replicate a none ++
          some i :: (List.replicate (b - a - 1) none ++ [some j])) t := by
  rw [multiSelect_cons_some a i (List.replicate (b - a - 1) none ++ [some j]) t]
  have hrep : List.replicate a (none : Option ℤ) ++
      (List.replicate (b - a - 1) none ++ [some j])
      = List.replicate (b - 1) none ++ [some j] := by
    rw [← List.append_assoc, ← List.replicate_add]
    have hba : a + (b - a - 1) = b - 1 := by omega
    rw [hba]
  rw [hrep]
  rw [funext (multiSelect_replicate_single (b - 1) j)]
  have ha : ((a : ℤ) < 0) = False := eq_false (by omega)
  have hb : (((b - 1 : ℕ) : ℤ) < 0) = False := eq_false (by omega)
  simp only [get_sub_tensor, List.zip_cons_cons, List.zip_nil_right,
    List.foldlM_cons, List.foldlM_nil, ha, hb, if_false, Int.toNat_natCast]
  simp

/-- C5 amended witness: `get_sub_tensor(A, [0, 1], [1, 3])` (progressive
numbering for original axes 0 and 2) equals `A[1, :, 3]` on the concrete
`3 × 4 × 5` tensor. -/
theorem get_sub_tensor_progressive_witness :
    get_sub_tensor exTensor3 [0, 1] [1, 3]
      = multiSelect [some 1, none, some 3] exTensor3 :=
  get_sub_tensor_progressive exTensor3 0 2 1 3 (by omega)

/-! Lemmas about `add_expand_dim`. -/

lemma expandLoop_error (idxs szs : List ℤ) (nk : ℕ) :
    ∀ (ds : List ℕ) (acc : String × String × ℕ),
      (∃ d ∈ ds, coveredDim idxs nk d = false) →
      expandLoop ArrayKind.unsupportedKind idxs szs nk ds acc
        = Except.error PyErr.notImplementedError := by
  intro ds
  induction ds with
  | nil =>
    rintro acc ⟨d, hd, _⟩
    simp at hd
  | cons d rest ih =>
    rintro ⟨sa, se, ai⟩ ⟨d0, hd0, hcov⟩
    cases hc : coveredDim idxs nk d with
    | false => simp [expandLoop, hc]
    | true =>
      rcases List.mem_cons.mp hd0 with rfl | hmem
      · rw [hc] at hcov
        cases hcov
      · simp only [expandLoop, hc, if_true]
        exact ih _ ⟨d0, hmem, hcov⟩

lemma exists_uncovered (idxs : List ℤ) (n : ℕ) (hn : 1 ≤ n) :
    ∃ d ∈ List.range (n + idxs.length),
      coveredDim idxs (n + idxs.length) d = false := by
  by_contra hcon
  push_neg at hcon
  have hcov : ∀ d : ℕ, d < n + idxs.length →
      ((d : ℤ) ∈ idxs ∨
        (d : ℤ) ∈ idxs.map (fun idx => ((n + idxs.length : ℕ) : ℤ) + idx)) := by
    intro d hd
    have h1 := hcon d (List.mem_range.mpr hd)
    have h2 : coveredDim idxs (n + idxs.length) d = true :=
      Bool.ne_false_iff.mp h1
    simpa [coveredDim] using h2
  have hsub : (Finset.range (n + idxs.length)).image (fun d : ℕ => (d : ℤ))
      ⊆ idxs.toFinset.image
        (fun idx => if idx < 0 then ((n + idxs.length : ℕ) : ℤ) + idx
          else idx) := by
    intro z hz
    simp only [Finset.mem_image, Finset.mem_range] at hz
    obtain ⟨d, hd, rfl⟩ := hz
    rcases hcov d hd with h | h
    · exact Finset.mem_image.mpr
        ⟨(d : ℤ), List.mem_toFinset.mpr h, by rw [if_neg (by omega)]⟩
    · simp only [List.mem_map] at h
      obtain ⟨idx, hidx, hEq⟩ := h
      refine Finset.mem_image.mpr ⟨idx, List.mem_toFinset.mpr hidx, ?_⟩
      have hlt : idx < 0 := by omega
      rw [if_pos hlt]
      exact hEq
  have hcard := Finset.card_le_card hsub
  rw [Finset.card_image_of_injective _
    (fun x y h => by exact_mod_cast h)] at hcard
  rw [Finset.card_range] at hcard
  have h2 := Finset.card_image_le (s := idxs.toFinset)
    (f := fun idx => if idx < 0 then ((n + idxs.length : ℕ) : ℤ) + idx
      else idx)
  have h3 := List.toFinset_card_le idxs
  omega

/-- C7 counterexample: `NotImplementedError` is raised inside the loop's
non-inserted-position branch, so when the data is 0-dimensional and the
inserted axes cover every position of the augmented rank (here rank 0,
`add_dim_indices = [0]`, `add_dim_sizes = [2]`) the type check is never
reached and the call proceeds to the `np.tile` branch instead of failing
with a "not implemented" error. -/
theorem add_expand_dim_unsupported_cex :
    add_expand_dim ArrayKind.unsupportedKind 0 [0] [2]
      = Except.ok (ExpandPath.npTile, "data[None, ]", "2, ") ∧
    add_expand_dim ArrayKind.unsupportedKind 0 [0] [2]
      ≠ Except.error PyErr.notImplementedError := by
  have heq : add_expand_dim ArrayKind.unsupportedKind 0 [0] [2]
      = Except.ok (ExpandPath.npTile, "data[None, ]", "2, ") := rfl
  refine ⟨heq, ?_⟩
  rw [heq]
  exact fun h => Except.noConfusion h

/-- C7 amended: for data of an unsupported runtime kind with equal-length
index/size lists, `add_expand_dim` fails with `NotImplementedError`
whenever some position of the augmented rank `range(ndim + k)` is not an
inserted axis (the first such position reaches the loop's type check); in
particular it always fails when the data has at least one real axis
(`ndim ≥ 1`, pigeonhole: `k` indices cannot cover `ndim + k` positions). -/
theorem add_expand_dim_unsupported (n : ℕ) (idxs szs : List ℤ)
    (hlen : idxs.length = szs.length) :
    ((∃ d ∈ List.range (n + idxs.length),
        coveredDim idxs (n + idxs.length) d = false) →
      add_expand_dim ArrayKind.unsupportedKind n idxs szs
        = Except.error PyErr.notImplementedError) ∧
    (1 ≤ n →
      add_expand_dim ArrayKind.unsupportedKind n idxs szs
        = Except.error PyErr.notImplementedError) := by
  have huncov : (∃ d ∈ List.range (n + idxs.length),
      coveredDim idxs (n + idxs.length) d = false) →
      add_expand_dim ArrayKind.unsupportedKind n idxs szs
        = Except.error PyErr.notImplementedError := by
    rintro ⟨d, hd, hcov⟩
    simp only [add_expand_dim]
    rw [expandLoop_error idxs szs (n + idxs.length)
      (List.range (n + idxs.length)) ("", "", 0) ⟨d, hd, hcov⟩]
  exact ⟨huncov, fun hn => huncov (exists_uncovered idxs n hn)⟩

/-- C7 amended witness: a 0-dimensional unsupported array whose single
inserted-axis index `1` covers no position of the augmented rank fails
with `NotImplementedError`, and so does a 1-dimensional unsupported array
with one inserted axis. -/
theorem add_expand_dim_unsupported_witness :
    add_expand_dim ArrayKind.unsupportedKind 0 [1] [5]
      = Except.error PyErr.notImplementedError ∧
    add_expand_dim ArrayKind.unsupportedKind 1 [0] [2]
      = Except.error PyErr.notImplementedError :=
  ⟨(add_expand_dim_unsupported 0 [1] [5] rfl).1 (by decide),
    (add_expand_dim_unsupported 1 [0] [2] rfl).2 (by omega)⟩

end UtilMatrix
